import Mathlib

/-!
Verification of the helium-gateway PoC core against its specification.

The development shallowly embeds the Rust sources:
  * `src/lora_throttle.rs` — regulatory time-on-air throttle;
  * `src/poc/onion.rs`     — onion frame codec (layer peeling, decryption);
  * `src/poc/store.rs`     — report/challenge store garbage collection.

Conventions of the embedding:
  * Rust `f32`/`f64` values are modelled as exact rationals (`ℚ`), except
    where a claim is about the rounding itself: the dwell-time assertion
    analysis models binary64 round-to-nearest relationally (`RoundsTo`),
    since under exact arithmetic the assertion would (vacuously) hold while
    under `f64` rounding it can fail.
  * Rust machine integers are modelled as `ℤ`/`ℕ`; where the source relies
    on two's-complement wrapping (`u32` arithmetic in `payload_symbols`)
    the wrap is written out explicitly with `% 2^32`.
  * Rust `Vec`/`Bytes` buffers are lists of byte values (`List ℕ`, each
    element kept below 256 by construction).
  * A Rust panic (out-of-bounds `Bytes` access, assertion failure) is
    modelled by `Option`: `none` marks the input on which the source
    panics.
-/

namespace HeliumGateway

/-! ## lora_throttle.rs : data model -/

/-- One record of `sent_packets` (struct `SentPacket` in `lora_throttle.rs`):
frequency (`f32`), send time in ms (`i64`), time on air in ms (`f64`). -/
structure SentPacket where
  frequency : ℚ
  sentAt : ℤ
  timeOnAir : ℚ
deriving DecidableEq

/-- `MAX_TIME_ON_AIR`: the global 400 ms ceiling. -/
def MAX_TIME_ON_AIR : ℚ := 400

/-- `enum LoraRegulatoryModel` — the `Unregulated` case of the spec is the
`None` of the surrounding `Option<LoraRegulatoryModel>`. -/
inductive LoraRegulatoryModel
  | dwell (limit : ℚ) (period : ℤ)
  | duty (limit : ℚ) (period : ℤ)
deriving DecidableEq

/-- `LoraRegulatoryModel::period`. -/
def LoraRegulatoryModel.period : LoraRegulatoryModel → ℤ
  | .dwell _ p => p
  | .duty _ p => p

/-- The pro-rated share of a packet that straddles the cutoff
(`relevant_time_on_air` in `dwell_time`, scenario 3). -/
def relevantTimeOnAir (cutoffTime : ℚ) (p : SentPacket) : ℚ :=
  p.timeOnAir - (cutoffTime - (p.sentAt : ℚ))

/-- Scenario 2 of `dwell_time`: the packet is skipped because it was sent on
a non-relevant frequency (only when a frequency filter is supplied). -/
def freqSkip (frequency : Option ℚ) (p : SentPacket) : Bool :=
  match frequency with
  | some f => decide (p.frequency ≠ f)
  | none => false

/-- The contribution of one tracked packet to `dwell_time`, following the
four scenarios of the source loop in order. -/
def dwellContrib (cutoffTime : ℚ) (frequency : Option ℚ) (p : SentPacket) : ℚ :=
  if (p.sentAt : ℚ) + p.timeOnAir < cutoffTime then 0
  else if freqSkip frequency p then 0
  else if (p.sentAt : ℚ) ≤ cutoffTime then relevantTimeOnAir cutoffTime p
  else p.timeOnAir

/-- `dwell_time(sent_packets, cutoff_time, frequency)`: the accumulator loop
of the source, written as a left fold. -/
def dwellTime (sentPackets : List SentPacket) (cutoffTime : ℚ) (frequency : Option ℚ) : ℚ :=
  sentPackets.foldl (fun acc p => acc + dwellContrib cutoffTime frequency p) 0

/-- `LoraRegulatoryModel::can_send`. -/
def LoraRegulatoryModel.canSend (m : LoraRegulatoryModel) (sentPackets : List SentPacket)
    (atTime : ℤ) (frequency : ℚ) (timeOnAir : ℚ) : Bool :=
  if MAX_TIME_ON_AIR < timeOnAir then false
  else
    match m with
    | .dwell limit period =>
        let cutoffTime : ℚ := ((atTime - period : ℤ) : ℚ) + timeOnAir
        decide (dwellTime sentPackets cutoffTime (some frequency) + timeOnAir ≤ limit)
    | .duty limit period =>
        let cutoffTime : ℚ := ((atTime - period : ℤ) : ℚ)
        decide ((dwellTime sentPackets cutoffTime none + timeOnAir) / (period : ℚ) < limit)

/-- `struct LoraThrottle`. -/
structure LoraThrottle where
  model : Option LoraRegulatoryModel
  sentPackets : List SentPacket
deriving DecidableEq

/-- `LoraThrottle::can_send`: `false` when no model is configured. -/
def LoraThrottle.canSend (t : LoraThrottle) (atTime : ℤ) (frequency : ℚ) (timeOnAir : ℚ) : Bool :=
  match t.model with
  | some m => m.canSend t.sentPackets atTime frequency timeOnAir
  | none => false

/-- The order `sort_unstable` sorts `sent_packets` by: `Ord for SentPacket`
compares `sent_at` alone. -/
def sentPacketLE (a b : SentPacket) : Prop := a.sentAt ≤ b.sentAt

instance : DecidableRel sentPacketLE :=
  fun a b => inferInstanceAs (Decidable (a.sentAt ≤ b.sentAt))

instance : IsTotal SentPacket sentPacketLE :=
  ⟨fun a b => le_total a.sentAt b.sentAt⟩

instance : IsTrans SentPacket sentPacketLE :=
  ⟨fun _ _ _ h h2 => le_trans h h2⟩

/-- The insertion step of `track_sent`: compute the sort flag from the last
element before pushing, push, and re-sort only when the new record is not
already the chronological maximum. The source's `sort_unstable` is modelled
by insertion sort: both return a permutation sorted by `sent_at`, which is
all the tracked state exposes to `can_send` and to the invariants below. -/
def trackInsert (packets : List SentPacket) (sentPacket : SentPacket) : List SentPacket :=
  let sort : Bool :=
    match packets.getLast? with
    | some lastPacket => decide (sentPacket.sentAt < lastPacket.sentAt)
    | none => false
  let packets0 := packets ++ [sentPacket]
  if sort then List.insertionSort sentPacketLE packets0 else packets0

/-- The retention step of `track_sent`: keep only records newer than the
latest record's `sent_at` minus the model's period. -/
def trackRetain (model : LoraRegulatoryModel) (packets : List SentPacket) : List SentPacket :=
  match packets.getLast? with
  | some lastPacket =>
      packets.filter (fun p => decide (lastPacket.sentAt - model.period < p.sentAt))
  | none => packets

/-- `LoraThrottle::track_sent`: a no-op without a model, otherwise insert
then retain. -/
def LoraThrottle.trackSent (t : LoraThrottle) (sentAt : ℤ) (frequency : ℚ)
    (timeOnAir : ℚ) : LoraThrottle :=
  match t.model with
  | none => t
  | some model =>
      { t with sentPackets :=
          trackRetain model (trackInsert t.sentPackets
            { frequency := frequency, sentAt := sentAt, timeOnAir := timeOnAir }) }

/-- Folding `track_sent` over a list of calls from the empty state: the
states reachable by prior `track_sent` calls. -/
def throttleStep (t : LoraThrottle) (c : ℤ × ℚ × ℚ) : LoraThrottle :=
  t.trackSent c.1 c.2.1 c.2.2

/-- The throttle reached from the empty state by a list of
`(sent_at, frequency, time_on_air)` calls. -/
def reachableThrottle (model : Option LoraRegulatoryModel)
    (calls : List (ℤ × ℚ × ℚ)) : LoraThrottle :=
  calls.foldl throttleStep ⟨model, []⟩

/-! ## lora_throttle.rs : the spec's accounting, stated in its own words -/

/-- The spec's overlap test: the packet's transmission meets
`[cutoffTime, ∞)`. -/
def overlapsWindow (cutoffTime : ℚ) (p : SentPacket) : Bool :=
  decide (cutoffTime ≤ (p.sentAt : ℚ) + p.timeOnAir)

/-- The spec's per-packet share: a packet straddling the cutoff contributes
only its portion after the cutoff, any other overlapping packet its full
time on air. -/
def specDwellContribution (cutoffTime : ℚ) (p : SentPacket) : ℚ :=
  if (p.sentAt : ℚ) ≤ cutoffTime then p.timeOnAir - (cutoffTime - (p.sentAt : ℚ))
  else p.timeOnAir

/-- The spec's dwell sum: over tracked packets on the given frequency whose
transmission overlaps `[cutoffTime, ∞)`. -/
def specDwellSum (sentPackets : List SentPacket) (f : ℚ) (cutoffTime : ℚ) : ℚ :=
  ((sentPackets.filter (fun p => decide (p.frequency = f) && overlapsWindow cutoffTime p)).map
    (specDwellContribution cutoffTime)).sum

/-- The spec's duty sum: over all tracked packets, every frequency, whose
transmission overlaps `[cutoffTime, ∞)`. -/
def specDutySum (sentPackets : List SentPacket) (cutoffTime : ℚ) : ℚ :=
  ((sentPackets.filter (overlapsWindow cutoffTime)).map (specDwellContribution cutoffTime)).sum

/-! ## Binary64 rounding, stated relationally

The exact-rational reading of `dwell_time` above characterizes which side
of each comparison the source takes when no rounding intervenes. Whether
the source's `assert!(relevant_time_on_air >= 0.0)` can fire is a question
about the rounding itself, so for that claim the `f64` operations are
modelled by the IEEE round-to-nearest relation below rather than by exact
arithmetic. -/

/-- A finite binary64 value: an integer significand of magnitude below
`2 ^ 53` scaled by a power of two. The exponent range is left unconstrained
(no overflow or subnormal boundary): within the binade `(2^53, 2^54)` used
by the failing input this set coincides exactly with the finite `f64`
values, a spacing-2 grid of even integers. -/
def IsFloat64 (y : ℚ) : Prop :=
  ∃ m e : ℤ, |m| < 2 ^ 53 ∧ y = (m : ℚ) * (2 : ℚ) ^ e

/-- `RoundsTo x y`: `y` is a result a correctly rounding binary64
operation may return for the exact value `x` — a representable value at
minimal distance from `x` (any tie-breaking rule is admitted, so every
IEEE rounding-to-nearest mode satisfies this). -/
def RoundsTo (x y : ℚ) : Prop :=
  IsFloat64 y ∧ ∀ z : ℚ, IsFloat64 z → |x - y| ≤ |x - z|

/-- The tracked packet of the failing input for the dwell-time assertion:
`sent_at = 2^53` (exactly representable in `f64`), `time_on_air = 1.75`. -/
def p9 : SentPacket := { frequency := 0, sentAt := 2 ^ 53, timeOnAir := 7 / 4 }

/-- The cutoff of the failing input: `(at_time - period) as f64` with
`at_time - period = 2^53 + 2`, which the cast represents exactly. -/
def cutoff9 : ℚ := 2 ^ 53 + 2

/-! ## lora_throttle.rs : payload_symbols

The source computes in `u32`; the wrap of each operation is written out.
The `as f32` casts and the `f32` division are modelled as exact rational
arithmetic. -/

/-- Wrapping `u32` addition. -/
def add32 (a b : ℕ) : ℕ := (a + b) % 2 ^ 32

/-- Wrapping `u32` subtraction. -/
def sub32 (a b : ℕ) : ℕ := (a % 2 ^ 32 + 2 ^ 32 - b % 2 ^ 32) % 2 ^ 32

/-- Wrapping `u32` multiplication. -/
def mul32 (a b : ℕ) : ℕ := a * b % 2 ^ 32

/-- Saturating float-to-`u32` cast (Rust `as u32` on a float). -/
def satCast32 (x : ℤ) : ℕ :=
  if x < 0 then 0 else if (2 ^ 32 - 1 : ℤ) < x then 2 ^ 32 - 1 else x.toNat

/-- `payload_symbols` from `lora_throttle.rs`: the numerator is built with
the source's `u32` operations (each subtraction wraps), divided as a float
modelled exactly, `.ceil()` then `as u32` (saturating) then a wrapping
multiplication by the code rate, `max(_, 0)` over `u32`, plus 8. -/
def payload_symbols (spreadingFactor codeRate : ℕ) (explicitHeader : Bool)
    (payloadLen : ℕ) (lowDatarateOptimized : Bool) : ℕ :=
  let eh : ℕ := if explicitHeader then 1 else 0
  let ldo : ℕ := if lowDatarateOptimized then 1 else 0
  let sf : ℕ := spreadingFactor % 2 ^ 32
  let pl : ℕ := payloadLen % 2 ^ 32
  let num : ℕ :=
    sub32 (add32 (add32 (sub32 (mul32 8 pl) (mul32 4 sf)) 28) 16) (mul32 20 (sub32 1 eh))
  let den : ℕ := mul32 4 (sub32 sf (mul32 2 ldo))
  let q : ℤ := Int.ceil ((num : ℚ) / (den : ℚ))
  add32 8 (max (mul32 (satCast32 q) codeRate) 0)

/-- The payload-symbol count as the spec's formula states it: the numerator
evaluated over the integers (it may be negative), exact division, the
ceiling applied before multiplying by the code rate, and `max 0` clamping
a negative product. -/
def payloadSymbolsSpec (spreadingFactor codeRate : ℤ) (explicitHeader : Bool)
    (payloadLen : ℤ) (lowDatarateOptimized : Bool) : ℤ :=
  let eh : ℤ := if explicitHeader then 1 else 0
  let ldo : ℤ := if lowDatarateOptimized then 1 else 0
  8 + max 0 (Int.ceil
      (((8 * payloadLen - 4 * spreadingFactor + 28 + 16 - 20 * (1 - eh) : ℤ) : ℚ)
        / ((4 * (spreadingFactor - 2 * ldo) : ℤ) : ℚ)) * codeRate)

/-! ## Bit-level helpers

Machine words are `ℕ` kept below the word bound; XOR and AND of two words
below `2 ^ w` stay below `2 ^ w`, so no extra masking is needed. -/

/-- XOR of two bytes (the keystream application). -/
def xor8 (a b : ℕ) : ℕ := a ^^^ b

/-- XOR of two 16-bit values (the IV rotation in `get_layer`). -/
def xor16 (a b : ℕ) : ℕ := a ^^^ b

/-! ## SHA-512 (the `sha2` crate's `Sha512::digest`, FIPS 180-4) -/

/-- Reduce to a 64-bit word. -/
def w64 (x : ℕ) : ℕ := x % 2 ^ 64

/-- Rotate a 64-bit word right by `k`. -/
def rotr64 (x k : ℕ) : ℕ := w64 (x / 2 ^ k + x % 2 ^ k * 2 ^ (64 - k))

/-- Shift a 64-bit word right by `k`. -/
def shr64 (x k : ℕ) : ℕ := x / 2 ^ k

/-- Complement of a 64-bit word. -/
def not64 (x : ℕ) : ℕ := 2 ^ 64 - 1 - x % 2 ^ 64

/-- XOR of two 64-bit words. -/
def xor64 (a b : ℕ) : ℕ := a ^^^ b

/-- AND of two 64-bit words. -/
def and64 (a b : ℕ) : ℕ := a &&& b

/-- SHA-512 Sigma0. -/
def bigS0 (x : ℕ) : ℕ := xor64 (rotr64 x 28) (xor64 (rotr64 x 34) (rotr64 x 39))

/-- SHA-512 Sigma1. -/
def bigS1 (x : ℕ) : ℕ := xor64 (rotr64 x 14) (xor64 (rotr64 x 18) (rotr64 x 41))

/-- SHA-512 sigma0. -/
def smallS0 (x : ℕ) : ℕ := xor64 (rotr64 x 1) (xor64 (rotr64 x 8) (shr64 x 7))

/-- SHA-512 sigma1. -/
def smallS1 (x : ℕ) : ℕ := xor64 (rotr64 x 19) (xor64 (rotr64 x 61) (shr64 x 6))

/-- SHA-512 Ch. -/
def chF (e f g : ℕ) : ℕ := xor64 (and64 e f) (and64 (not64 e) g)

/-- SHA-512 Maj. -/
def majF (a b c : ℕ) : ℕ := xor64 (and64 a b) (xor64 (and64 a c) (and64 b c))

/-- The 80 SHA-512 round constants. -/
def sha512K : List ℕ := [
  4794697086780616226, 8158064640168781261, 13096744586834688815,
  16840607885511220156, 4131703408338449720, 6480981068601479193,
  10538285296894168987, 12329834152419229976, 15566598209576043074,
  1334009975649890238, 2608012711638119052, 6128411473006802146,
  8268148722764581231, 9286055187155687089, 11230858885718282805,
  13951009754708518548, 16472876342353939154, 17275323862435702243,
  1135362057144423861, 2597628984639134821, 3308224258029322869,
  5365058923640841347, 6679025012923562964, 8573033837759648693,
  10970295158949994411, 12119686244451234320, 12683024718118986047,
  13788192230050041572, 14330467153632333762, 15395433587784984357,
  489312712824947311, 1452737877330783856, 2861767655752347644,
  3322285676063803686, 5560940570517711597, 5996557281743188959,
  7280758554555802590, 8532644243296465576, 9350256976987008742,
  10552545826968843579, 11727347734174303076, 12113106623233404929,
  14000437183269869457, 14369950271660146224, 15101387698204529176,
  15463397548674623760, 17586052441742319658, 1182934255886127544,
  1847814050463011016, 2177327727835720531, 2830643537854262169,
  3796741975233480872, 4115178125766777443, 5681478168544905931,
  6601373596472566643, 7507060721942968483, 8399075790359081724,
  8693463985226723168, 9568029438360202098, 10144078919501101548,
  10430055236837252648, 11840083180663258601, 13761210420658862357,
  14299343276471374635, 14566680578165727644, 15097957966210449927,
  16922976911328602910, 17689382322260857208, 500013540394364858,
  748580250866718886, 1242879168328830382, 1977374033974150939,
  2944078676154940804, 3659926193048069267, 4368137639120453308,
  4836135668995329356, 5532061633213252278, 6448918945643986474,
  6902733635092675308, 7801388544844847127]

/-- The SHA-512 initial hash value. -/
def sha512H0 : List ℕ := [
  7640891576956012808, 13503953896175478587, 4354685564936845355,
  11912009170470909681, 5840696475078001361, 11170449401992604703,
  2270897969802886507, 6620516959819538809]

/-- The `n` big-endian bytes of a word. -/
def beBytes : ℕ → ℕ → List ℕ
  | 0, _ => []
  | k + 1, x => beBytes k (x / 256) ++ [x % 256]

/-- A big-endian byte list read as a word. -/
def bytesToWord (bs : List ℕ) : ℕ := bs.foldl (fun a b => a * 256 + b) 0

/-- Split a list into chunks of `n` (fuel-based for kernel reduction). -/
def chunksAux : ℕ → ℕ → List ℕ → List (List ℕ)
  | 0, _, _ => []
  | _ + 1, _, [] => []
  | fuel + 1, n, a :: l => ((a :: l).take n) :: chunksAux fuel n ((a :: l).drop n)

/-- SHA-512 message padding: 0x80, zeros to 112 mod 128, the bit length as
16 big-endian bytes. -/
def sha512Pad (msg : List ℕ) : List ℕ :=
  msg ++ 0x80 :: (List.replicate ((128 - (msg.length + 17) % 128) % 128) 0
    ++ beBytes 16 (8 * msg.length))

/-- Extend the 16 message words to 80 schedule words. -/
def sha512Schedule : ℕ → List ℕ → List ℕ
  | 0, ws => ws
  | k + 1, ws =>
      sha512Schedule k (ws ++ [w64 (smallS1 (ws.getD (ws.length - 2) 0)
        + ws.getD (ws.length - 7) 0 + smallS0 (ws.getD (ws.length - 15) 0)
        + ws.getD (ws.length - 16) 0)])

/-- One SHA-512 compression round: the state is the 8-word list
`[a, b, c, d, e, f, g, h]`, the pair is (round constant, schedule word). -/
def sha512Round (s : List ℕ) (kw : ℕ × ℕ) : List ℕ :=
  let a := s.getD 0 0
  let b := s.getD 1 0
  let c := s.getD 2 0
  let d := s.getD 3 0
  let e := s.getD 4 0
  let f := s.getD 5 0
  let g := s.getD 6 0
  let h := s.getD 7 0
  let t1 := w64 (h + bigS1 e + chF e f g + kw.1 + kw.2)
  let t2 := w64 (bigS0 a + majF a b c)
  [w64 (t1 + t2), a, b, c, w64 (d + t1), e, f, g]

/-- The 80 SHA-512 compression rounds over the zipped
(constant, schedule word) pairs. -/
def sha512Compress (kws : List (ℕ × ℕ)) (st : List ℕ) : List ℕ :=
  kws.foldl sha512Round st

/-- One SHA-512 block step. -/
def sha512Block (st : List ℕ) (block : List ℕ) : List ℕ :=
  let msgWords := (chunksAux block.length 8 block).map bytesToWord
  let ws := sha512Schedule 64 msgWords
  let st2 := sha512Compress (sha512K.zip ws) st
  (st.zip st2).map (fun p => w64 (p.1 + p.2))

/-- `Sha512::digest`: the 64-byte SHA-512 digest of a byte list. -/
def sha512 (msg : List ℕ) : List ℕ :=
  let padded := sha512Pad msg
  (((chunksAux padded.length 128 padded).foldl sha512Block sha512H0).map (beBytes 8)).flatten

/-! ## poc/onion.rs -/

/-- `struct Onion`: the parsed frame with its radio metadata. The public
key is its 33-byte wire encoding. -/
structure Onion where
  signalStrength : ℚ
  snr : ℚ
  timestamp : ℕ
  frequency : ℚ
  channel : ℤ
  datarate : ℕ
  publicKey : List ℕ
  iv : ℕ
  tag : List ℕ
  cipherText : List ℕ
deriving DecidableEq

/-- Two little-endian bytes read as a 16-bit value (`get_u16_le`). -/
def le16ofBytes (b0 b1 : ℕ) : ℕ := b0 + 256 * b1

/-- A 16-bit value written as its two little-endian bytes (`put_u16_le`). -/
def le16Bytes (x : ℕ) : List ℕ := [x % 256, x / 256 % 256]

/-- The buffer walk of `Onion::get_layer` over the ciphertext bytes. `none`
models a panic of the source: `get_u8` on an empty buffer, `copy_to_bytes`
past the end of the ciphertext, the `L + 5` padding bytes or the following
XOR pair past the end of the 64-byte SHA-512 digest, or the selector read
past the end of a short payload. -/
def getLayerBytes (iv : ℕ) (publicKey : List ℕ) : List ℕ → Option (ℕ × List ℕ)
  | [] => none
  | dataSize :: buf =>
    if dataSize ≤ buf.length then
      let data := buf.take dataSize
      let rest := buf.drop dataSize
      let digest := sha512 data
      if dataSize + 5 ≤ digest.length then
        let padding := digest.take (dataSize + 5)
        let digestRest := digest.drop (dataSize + 5)
        if 2 ≤ digestRest.length then
          let xorv := le16ofBytes (digestRest.getD 0 0) (digestRest.getD 1 0)
          let nextLayer := le16Bytes (xor16 iv xorv) ++ publicKey ++ rest ++ padding
          if 2 ≤ data.length then
            some (le16ofBytes (data.getD 0 0) (data.getD 1 0), nextLayer)
          else none
        else none
      else none
    else none

/-- `Onion::get_layer`: the buffer walk applied to the frame's fields. -/
def Onion.getLayer (o : Onion) : Option (ℕ × List ℕ) :=
  getLayerBytes o.iv o.publicKey o.cipherText

/-- `get_layer` as claim C3 words it: the SHA-512 digest is taken over the
length-prefixed payload, its low 16 bits (bytes 0 and 1, little-endian) are
XORed with the IV, and its first `L + 5` bytes are the padding. Kept only
to compare with `Onion.getLayer`; the counterexample separates the two. -/
def Onion.getLayerClaim (o : Onion) : Option (ℕ × List ℕ) :=
  match o.cipherText with
  | [] => none
  | dataSize :: buf =>
    if dataSize ≤ buf.length then
      let data := buf.take dataSize
      let rest := buf.drop dataSize
      let digest := sha512 (dataSize :: data)
      let xorv := le16ofBytes (digest.getD 0 0) (digest.getD 1 0)
      let padding := digest.take (dataSize + 5)
      let nextLayer := le16Bytes (xor16 o.iv xorv) ++ o.publicKey ++ rest ++ padding
      if 2 ≤ data.length then
        some (le16ofBytes (data.getD 0 0) (data.getD 1 0), nextLayer)
      else none
    else none

/-- A concrete well-formed frame for claims C3 and C10: length byte 2,
payload bytes 1 and 2, remainder byte 9. -/
def onionC3 : Onion :=
  { signalStrength := 0, snr := 0, timestamp := 0, frequency := 0, channel := 0,
    datarate := 0, publicKey := List.replicate 33 9, iv := 7,
    tag := [1, 2, 3, 4], cipherText := [2, 1, 2, 9] }

/-- A frame whose ciphertext is empty: the first `get_u8` of `get_layer`
panics on it (claim C8). -/
def onionEmpty : Onion :=
  { signalStrength := 0, snr := 0, timestamp := 0, frequency := 0, channel := 0,
    datarate := 0, publicKey := List.replicate 33 9, iv := 0,
    tag := [0, 0, 0, 0], cipherText := [] }

/-- `C_MAX` of the `aes_gcm` crate: the AES-GCM ciphertext-length ceiling. -/
def C_MAX : ℕ := 2 ^ 36 + 16

/-- `NONCE_LENGTH` from `poc/onion.rs`. -/
def NONCE_LENGTH : ℕ := 12

/-- The error cases of `decrypt_in_place`: `OnionError::invalid_size`, a
propagated ECDH failure, `OnionError::crypto_error`. -/
inductive OnionDecryptError
  | invalidSize (n : ℕ)
  | ecdhFailed
  | cryptoError
deriving DecidableEq

/-- XOR a buffer against a byte keystream starting at a byte offset
(`apply_keystream`: the 16-byte tag consumes keystream bytes 0..15, the
ciphertext continues at byte 16 of the same CTR stream). -/
def xorKeystream (ks : ℕ → ℕ) (offset : ℕ) (l : List ℕ) : List ℕ :=
  (l.zip (List.range l.length)).map (fun p => xor8 p.1 (ks (offset + p.2)))

/-- The 45-byte block built by `decrypt_in_place`: 10 zero bytes, the IV
as two little-endian bytes, then the 33 sender public key bytes. Its first
`NONCE_LENGTH` bytes are the CTR nonce; the whole block is the additional
authenticated data. -/
def onionAad (o : Onion) : List ℕ :=
  List.replicate 10 0 ++ le16Bytes o.iv ++ o.publicKey

/-- `Onion::decrypt_in_place`, with the cryptographic primitives as
parameters: `ecdh` is the keypair's fallible shared-secret derivation,
`computeTag` the GHASH-based tag of (aad, buffer) under the AES key derived
from the shared secret, `keystream` the AES-CTR keystream from the same
key and the nonce. The pair returned is (result, the frame after the call):
state passing for the source's `&mut self`. -/
def Onion.decryptInPlace (ecdh : List ℕ → Option (List ℕ))
    (computeTag : List ℕ → List ℕ → List ℕ → List ℕ)
    (keystream : List ℕ → List ℕ → ℕ → ℕ) (o : Onion) :
    Except OnionDecryptError Unit × Onion :=
  if C_MAX < o.cipherText.length then (Except.error (.invalidSize o.cipherText.length), o)
  else
    match ecdh o.publicKey with
    | none => (Except.error .ecdhFailed, o)
    | some sharedSecret =>
        if o.tag.isPrefixOf (xorKeystream (keystream sharedSecret ((onionAad o).take NONCE_LENGTH)) 0
            (computeTag sharedSecret (onionAad o) o.cipherText)) then
          let plainText := xorKeystream (keystream sharedSecret ((onionAad o).take NONCE_LENGTH)) 16 o.cipherText
          (Except.ok (), { o with cipherText := plainText })
        else (Except.error .cryptoError, o)

/-- A concrete always-failing ECDH for the C10 witness. -/
def ecdhNone (_ : List ℕ) : Option (List ℕ) := none

/-- A concrete tag function for the C10 witness. -/
def tagZeros (_ _ _ : List ℕ) : List ℕ := List.replicate 16 0

/-- A concrete all-zero keystream for the C10 witness. -/
def keystreamZero (_ : List ℕ) (_ : List ℕ) (_ : ℕ) : ℕ := 0

/-! ## poc/store.rs -/

/-- `QueueReport`: receipt time, optional resolved challenger, report
payload (opaque bytes), retry count (`i8`; `-1` is the delivered
sentinel). -/
structure QueueReport where
  received : ℕ
  challenger : Option (List ℕ)
  report : List ℕ
  retryCount : ℤ
deriving DecidableEq

/-- `PocStore::gc_waiting_reports`: retain the reports whose retry count is
at least zero and strictly below the ceiling. The `HashMap` is modelled as
an association list from PocId bytes to reports; `retain` is `filter`. -/
def gcWaitingReports (maxRetryCount : ℤ) (reports : List (List ℕ × QueueReport)) :
    List (List ℕ × QueueReport) :=
  reports.filter
    (fun kv => decide (0 ≤ kv.2.retryCount) && decide (kv.2.retryCount < maxRetryCount))

/-- `MAX_REPORT_RETRY_COUNT` from `poc/client.rs`. -/
def MAX_REPORT_RETRY_COUNT : ℤ := 20

/-! ## lora_throttle.rs : helper lemmas -/

theorem dwellTime_foldl (cutoffTime : ℚ) (frequency : Option ℚ) (l : List SentPacket) (a : ℚ) :
    l.foldl (fun acc p => acc + dwellContrib cutoffTime frequency p) a
      = a + (l.map (dwellContrib cutoffTime frequency)).sum := by
  induction l generalizing a with
  | nil => simp
  | cons p l ih => simp [ih, add_assoc]

theorem dwellContrib_some (c f : ℚ) (p : SentPacket) :
    dwellContrib c (some f) p
      = if p.frequency = f ∧ c ≤ (p.sentAt : ℚ) + p.timeOnAir
        then specDwellContribution c p else 0 := by
  unfold dwellContrib freqSkip specDwellContribution relevantTimeOnAir
  by_cases h1 : (p.sentAt : ℚ) + p.timeOnAir < c
  · have : ¬ (p.frequency = f ∧ c ≤ (p.sentAt : ℚ) + p.timeOnAir) := by
      rintro ⟨-, h2⟩; linarith
    simp [h1, this]
  · have h1' : c ≤ (p.sentAt : ℚ) + p.timeOnAir := le_of_not_lt h1
    by_cases hf : p.frequency = f
    · simp [h1, hf, h1']
    · simp [h1, hf]

theorem dwellContrib_none (c : ℚ) (p : SentPacket) :
    dwellContrib c none p
      = if c ≤ (p.sentAt : ℚ) + p.timeOnAir then specDwellContribution c p else 0 := by
  unfold dwellContrib freqSkip specDwellContribution relevantTimeOnAir
  by_cases h1 : (p.sentAt : ℚ) + p.timeOnAir < c
  · have : ¬ c ≤ (p.sentAt : ℚ) + p.timeOnAir := by linarith
    simp [h1, this]
  · have h1' : c ≤ (p.sentAt : ℚ) + p.timeOnAir := le_of_not_lt h1
    simp [h1, h1']

theorem dwellTime_eq_specDwellSum (l : List SentPacket) (f c : ℚ) :
    dwellTime l c (some f) = specDwellSum l f c := by
  unfold dwellTime specDwellSum
  rw [dwellTime_foldl, zero_add]
  induction l with
  | nil => simp
  | cons p l ih =>
    by_cases hf : p.frequency = f
    · by_cases ho : c ≤ (p.sentAt : ℚ) + p.timeOnAir
      · simp [List.filter_cons, dwellContrib_some, hf, ho, overlapsWindow, ih]
      · simp [List.filter_cons, dwellContrib_some, hf, ho, overlapsWindow, ih]
    · simp [List.filter_cons, dwellContrib_some, hf, overlapsWindow, ih]

theorem dwellTime_eq_specDutySum (l : List SentPacket) (c : ℚ) :
    dwellTime l c none = specDutySum l c := by
  unfold dwellTime specDutySum
  rw [dwellTime_foldl, zero_add]
  induction l with
  | nil => simp
  | cons p l ih =>
    by_cases ho : c ≤ (p.sentAt : ℚ) + p.timeOnAir
    · simp [List.filter_cons, dwellContrib_none, ho, overlapsWindow, ih]
    · simp [List.filter_cons, dwellContrib_none, ho, overlapsWindow, ih]

/-! ## Claims C1, C2, C4, C9 -/

/-- C1: with a `Dwell{limit, period}` model and `time_on_air` within the
400 ms ceiling, `can_send(at_time, f, time_on_air)` is true iff the sum of
the pro-rated airtime of tracked packets on frequency `f` overlapping
`[at_time - period + time_on_air, ∞)`, plus the candidate's own
`time_on_air`, is at most `limit` (inclusive comparison). -/
theorem dwell_canSend_iff (limit : ℚ) (period : ℤ) (history : List SentPacket)
    (atTime : ℤ) (f toa : ℚ) (h : toa ≤ MAX_TIME_ON_AIR) :
    LoraThrottle.canSend ⟨some (.dwell limit period), history⟩ atTime f toa = true
      ↔ specDwellSum history f (((atTime - period : ℤ) : ℚ) + toa) + toa ≤ limit := by
  have hno : ¬ (MAX_TIME_ON_AIR < toa) := not_lt.mpr h
  simp [LoraThrottle.canSend, LoraRegulatoryModel.canSend, hno, dwellTime_eq_specDwellSum]

/-- Witness for C1 at a concrete input: the empty history admits a full
400 ms transmission. -/
theorem dwell_canSend_iff_witness :
    LoraThrottle.canSend ⟨some (.dwell 400 20000), []⟩ 0 0 400 = true
      ↔ specDwellSum [] 0 (((0 - 20000 : ℤ) : ℚ) + 400) + 400 ≤ 400 :=
  dwell_canSend_iff 400 20000 [] 0 0 400 (by decide)

/-- C2: with a `Duty{limit, period}` model and `time_on_air` within the
400 ms ceiling, `can_send` is true iff `(S + time_on_air) / period < limit`
with strict inequality, where `S` pro-rates every tracked packet on every
frequency overlapping `[at_time - period, ∞)`. -/
theorem duty_canSend_iff (limit : ℚ) (period : ℤ) (history : List SentPacket)
    (atTime : ℤ) (f toa : ℚ) (h : toa ≤ MAX_TIME_ON_AIR) :
    LoraThrottle.canSend ⟨some (.duty limit period), history⟩ atTime f toa = true
      ↔ (specDutySum history ((atTime - period : ℤ) : ℚ) + toa) / (period : ℚ) < limit := by
  have hno : ¬ (MAX_TIME_ON_AIR < toa) := not_lt.mpr h
  simp [LoraThrottle.canSend, LoraRegulatoryModel.canSend, hno, dwellTime_eq_specDutySum]

/-- Witness for C2 at a concrete input, the spec's exact-1% scenario: with
35990 ms already on the air inside the hour-long window, a 10 ms request
reaching exactly the 1% limit is denied (strict inequality). -/
theorem duty_canSend_iff_witness :
    (LoraThrottle.canSend ⟨some (.duty (1/100) 3600000), [⟨0, 3598000, 35990⟩]⟩ 3599000 1 10 = true
      ↔ (specDutySum [⟨0, 3598000, 35990⟩] ((3599000 - 3600000 : ℤ) : ℚ) + 10) / ((3600000 : ℤ) : ℚ)
          < 1/100)
    ∧ LoraThrottle.canSend ⟨some (.duty (1/100) 3600000), [⟨0, 3598000, 35990⟩]⟩ 3599000 1 10
        = false :=
  ⟨duty_canSend_iff (1/100) 3600000 [⟨0, 3598000, 35990⟩] 3599000 1 10 (by decide),
    by norm_num [LoraThrottle.canSend, LoraRegulatoryModel.canSend, MAX_TIME_ON_AIR,
      dwellTime, dwellContrib, freqSkip, relevantTimeOnAir]⟩

/-- C4: every model denies a request whose `time_on_air` exceeds the 400 ms
ceiling, whatever the history; and with no model configured (`Unregulated`)
`can_send` is false for every input. -/
theorem canSend_denies (model : Option LoraRegulatoryModel) (history : List SentPacket)
    (atTime : ℤ) (f toa : ℚ) :
    (MAX_TIME_ON_AIR < toa → LoraThrottle.canSend ⟨model, history⟩ atTime f toa = false)
    ∧ LoraThrottle.canSend ⟨none, history⟩ atTime f toa = false := by
  constructor
  · intro h
    cases model with
    | none => rfl
    | some m => cases m <;> simp [LoraThrottle.canSend, LoraRegulatoryModel.canSend, h]
  · rfl

/-! ## Claim C9 : the dwell-time assertion under binary64 rounding

In exact arithmetic the straddling branch's contribution
`time_on_air - (cutoff - sent_at)` is non-negative whenever the scenario-1
guard `sent_at + time_on_air < cutoff` fails and `sent_at <= cutoff` holds.
The source, however, evaluates that guard in `f64`: when the sum rounds UP
to the cutoff, a packet whose transmission really ended strictly before the
cutoff enters the branch, and its contribution is negative — the
`assert!(relevant_time_on_air >= 0.0)` fires. The theorems below exhibit
this at the concrete input `p9`/`cutoff9`. -/

theorem roundsTo_eq_self (x y : ℚ) (hx : IsFloat64 x) (h : RoundsTo x y) : y = x := by
  have h0 := h.2 x hx
  rw [sub_self, abs_zero] at h0
  have h1 : |x - y| = 0 := le_antisymm h0 (abs_nonneg _)
  have h2 := abs_eq_zero.mp h1
  linarith

theorem roundsTo_sum_p9 (s : ℚ) (h : RoundsTo ((2 : ℚ) ^ 53 + 7 / 4) s) :
    s = 2 ^ 53 + 2 := by
  obtain ⟨⟨m, e, hm, hs⟩, hmin⟩ := h
  have hrepr : IsFloat64 ((2 : ℚ) ^ 53 + 2) := by
    refine ⟨2 ^ 52 + 1, 1, by norm_num, ?_⟩
    push_cast
    ring
  have hnear : |(2 : ℚ) ^ 53 + 7 / 4 - s| ≤ 1 / 4 := by
    have h2 := hmin ((2 : ℚ) ^ 53 + 2) hrepr
    have h3 : (2 : ℚ) ^ 53 + 7 / 4 - (2 ^ 53 + 2) = -(1 / 4) := by ring
    rw [h3, abs_neg] at h2
    calc |(2 : ℚ) ^ 53 + 7 / 4 - s| ≤ |(1 / 4 : ℚ)| := h2
      _ = 1 / 4 := by norm_num
  obtain ⟨hn1, hn2⟩ := abs_le.mp hnear
  have hlo : (2 : ℚ) ^ 53 + 3 / 2 ≤ s := by linarith
  have hhi : s ≤ (2 : ℚ) ^ 53 + 2 := by linarith
  have h53pos : (0 : ℚ) < 2 ^ 53 := by positivity
  have hepos : 1 ≤ e := by
    by_contra hle
    push_neg at hle
    have he0 : e ≤ 0 := by omega
    have h2epos : (0 : ℚ) < 2 ^ e := by positivity
    have h2e : (2 : ℚ) ^ e ≤ 1 := zpow_le_one_of_nonpos₀ (by norm_num) he0
    have hmpos : (0 : ℚ) < (m : ℚ) := by
      rcases lt_trichotomy ((m : ℚ)) 0 with hneg | hzero | hpos
      · nlinarith [hs]
      · exfalso; rw [hs, hzero, zero_mul] at hlo; linarith
      · exact hpos
    have hsm : s ≤ (m : ℚ) := by rw [hs]; nlinarith
    have hmlt : (m : ℚ) < 2 ^ 53 := by
      have := (abs_lt.mp hm).2
      exact_mod_cast this
    linarith
  obtain ⟨n, hn⟩ := Int.le.dest hepos
  have hzp : (2 : ℚ) ^ e = 2 * (2 : ℚ) ^ (n : ℕ) := by
    rw [← hn, zpow_add₀ (by norm_num : (2 : ℚ) ≠ 0), zpow_one, zpow_natCast]
  have hsK : s = 2 * ((m * 2 ^ n : ℤ) : ℚ) := by
    rw [hs, hzp]
    push_cast
    ring
  have hKlo : (2 : ℤ) ^ 52 < m * 2 ^ n := by
    have hq : (2 : ℚ) ^ 52 < ((m * 2 ^ n : ℤ) : ℚ) := by
      have h5253 : (2 : ℚ) ^ 53 = 2 * 2 ^ 52 := by ring
      nlinarith [hlo, hsK]
    exact_mod_cast hq
  have hKhi : m * 2 ^ n ≤ 2 ^ 52 + 1 := by
    have hq : ((m * 2 ^ n : ℤ) : ℚ) ≤ (2 : ℚ) ^ 52 + 1 := by
      have h5253 : (2 : ℚ) ^ 53 = 2 * 2 ^ 52 := by ring
      nlinarith [hhi, hsK]
    exact_mod_cast hq
  have hKeq : m * 2 ^ n = 2 ^ 52 + 1 := by omega
  rw [hsK, hKeq]
  push_cast
  ring

/-- C9: false of the program — the assertion CAN fail. On the tracked
packet `p9` (`sent_at = 2^53` ms, `time_on_air = 1.75` ms) with cutoff
`cutoff9 = 2^53 + 2`, every correctly rounded binary64 evaluation of the
loop body admits the packet into the straddling branch (the rounded sum
`sent_at + time_on_air` reaches the cutoff, so the scenario-1 guard does
not skip it, and `sent_at <= cutoff` holds), the inner difference
`cutoff - sent_at` is exactly 2, and the branch's computed contribution is
the exact, NEGATIVE `relevantTimeOnAir = -1/4` — on which the source's
`assert!(relevant_time_on_air >= 0.0)` fires. -/
theorem straddling_assert_fails_f64 :
    (∀ s : ℚ, RoundsTo ((p9.sentAt : ℚ) + p9.timeOnAir) s → ¬(s < cutoff9))
    ∧ (p9.sentAt : ℚ) ≤ cutoff9
    ∧ (∀ d : ℚ, RoundsTo (cutoff9 - (p9.sentAt : ℚ)) d → d = 2)
    ∧ (∀ r : ℚ, RoundsTo (p9.timeOnAir - 2) r →
        r = relevantTimeOnAir cutoff9 p9 ∧ r < 0) := by
  have hsent : ((p9.sentAt : ℤ) : ℚ) = 2 ^ 53 := by
    norm_num [p9]
  refine ⟨?_, ?_, ?_, ?_⟩
  · intro s hs
    have hx : (p9.sentAt : ℚ) + p9.timeOnAir = 2 ^ 53 + 7 / 4 := by
      rw [hsent]; norm_num [p9]
    rw [hx] at hs
    rw [roundsTo_sum_p9 s hs, cutoff9]
    norm_num
  · rw [hsent, cutoff9]; norm_num
  · intro d hd
    have hx : cutoff9 - (p9.sentAt : ℚ) = 2 := by rw [hsent, cutoff9]; ring
    rw [hx] at hd
    exact roundsTo_eq_self 2 d ⟨2, 0, by norm_num, by norm_num⟩ hd
  · intro r hr
    have hx : p9.timeOnAir - 2 = -(1 / 4) := by norm_num [p9]
    rw [hx] at hr
    have hrep : IsFloat64 (-(1 / 4 : ℚ)) := by
      refine ⟨-1, -2, by norm_num, ?_⟩
      rw [zpow_neg]
      norm_num
    have heq := roundsTo_eq_self (-(1 / 4)) r hrep hr
    refine ⟨?_, by rw [heq]; norm_num⟩
    rw [heq, relevantTimeOnAir, hsent, cutoff9]
    norm_num [p9]

/-! ## Claim C5 : track_sent invariants -/

theorem sorted_last_le {l : List SentPacket} {x : SentPacket}
    (hs : List.Sorted sentPacketLE l) (hx : l.getLast? = some x) :
    ∀ y ∈ l, y.sentAt ≤ x.sentAt := by
  obtain ⟨ys, rfl⟩ := List.getLast?_eq_some_iff.mp hx
  rw [List.Sorted, List.pairwise_append] at hs
  intro y hy
  rcases List.mem_append.mp hy with h | h
  · exact hs.2.2 y h x (List.mem_singleton_self x)
  · rw [List.mem_singleton.mp h]

theorem trackInsert_sorted (packets : List SentPacket) (p : SentPacket)
    (hs : List.Sorted sentPacketLE packets) :
    List.Sorted sentPacketLE (trackInsert packets p) := by
  unfold trackInsert
  cases hlast : packets.getLast? with
  | none =>
      have h0 : packets = [] := List.getLast?_eq_none_iff.mp hlast
      subst h0
      simpa using List.sorted_singleton p
  | some lastPacket =>
      by_cases hlt : p.sentAt < lastPacket.sentAt
      · simpa [hlt] using List.sorted_insertionSort sentPacketLE (packets ++ [p])
      · rw [if_neg (by simpa using hlt)]
        rw [List.Sorted, List.pairwise_append]
        refine ⟨hs, List.sorted_singleton p, ?_⟩
        intro a ha b hb
        rw [List.mem_singleton.mp hb]
        exact le_trans (sorted_last_le hs hlast a ha) (not_lt.mp hlt)

theorem trackRetain_sorted (model : LoraRegulatoryModel) (packets : List SentPacket)
    (hs : List.Sorted sentPacketLE packets) :
    List.Sorted sentPacketLE (trackRetain model packets) := by
  unfold trackRetain
  cases packets.getLast? with
  | none => exact hs
  | some lastPacket => exact List.Pairwise.sublist (List.filter_sublist packets) hs

theorem trackRetain_window (model : LoraRegulatoryModel) (packets : List SentPacket)
    (hs : List.Sorted sentPacketLE packets) :
    ∀ p ∈ trackRetain model packets, ∀ q ∈ trackRetain model packets,
      q.sentAt - model.period < p.sentAt := by
  unfold trackRetain
  cases hlast : packets.getLast? with
  | none =>
      have h0 : packets = [] := List.getLast?_eq_none_iff.mp hlast
      subst h0
      intro p hp
      cases hp
  | some lastPacket =>
      intro p hp q hq
      obtain ⟨hpmem, hppred⟩ := List.mem_filter.mp hp
      obtain ⟨hqmem, -⟩ := List.mem_filter.mp hq
      have h1 : lastPacket.sentAt - model.period < p.sentAt := of_decide_eq_true hppred
      have h2 : q.sentAt ≤ lastPacket.sentAt := sorted_last_le hs hlast q hqmem
      omega

theorem trackSent_model (t : LoraThrottle) (s : ℤ) (f toa : ℚ) :
    (t.trackSent s f toa).model = t.model := by
  rcases t with ⟨model, packets⟩
  cases model <;> rfl

theorem trackSent_sorted (t : LoraThrottle) (s : ℤ) (f toa : ℚ)
    (hs : List.Sorted sentPacketLE t.sentPackets) :
    List.Sorted sentPacketLE (t.trackSent s f toa).sentPackets := by
  rcases t with ⟨model, packets⟩
  cases model with
  | none => exact hs
  | some m => exact trackRetain_sorted m _ (trackInsert_sorted packets _ hs)

theorem trackSent_window (t : LoraThrottle) (m : LoraRegulatoryModel) (s : ℤ) (f toa : ℚ)
    (htm : t.model = some m) (hs : List.Sorted sentPacketLE t.sentPackets) :
    ∀ p ∈ (t.trackSent s f toa).sentPackets, ∀ q ∈ (t.trackSent s f toa).sentPackets,
      q.sentAt - m.period < p.sentAt := by
  rcases t with ⟨model, packets⟩
  cases model with
  | none => cases htm
  | some m2 =>
      have hm2 : m2 = m := Option.some.inj htm
      subst hm2
      exact trackRetain_window m2 _ (trackInsert_sorted packets _ hs)

theorem trackSent_noop (t : LoraThrottle) (s : ℤ) (f toa : ℚ) (h : t.model = none) :
    t.trackSent s f toa = t := by
  rcases t with ⟨model, packets⟩
  cases model with
  | none => rfl
  | some m => cases h

theorem foldl_throttleStep_model (cs : List (ℤ × ℚ × ℚ)) :
    ∀ t : LoraThrottle, (cs.foldl throttleStep t).model = t.model := by
  induction cs with
  | nil => intro t; rfl
  | cons c cs ih =>
      intro t
      rw [List.foldl_cons, ih]
      exact trackSent_model t c.1 c.2.1 c.2.2

theorem reachable_model (model : Option LoraRegulatoryModel) (calls : List (ℤ × ℚ × ℚ)) :
    (reachableThrottle model calls).model = model :=
  foldl_throttleStep_model calls _

theorem reachable_sorted (model : Option LoraRegulatoryModel) (calls : List (ℤ × ℚ × ℚ)) :
    List.Sorted sentPacketLE (reachableThrottle model calls).sentPackets := by
  unfold reachableThrottle
  have key : ∀ (cs : List (ℤ × ℚ × ℚ)) (t : LoraThrottle),
      List.Sorted sentPacketLE t.sentPackets →
      List.Sorted sentPacketLE (cs.foldl throttleStep t).sentPackets := by
    intro cs
    induction cs with
    | nil => intro t h; exact h
    | cons c cs ih =>
        intro t h
        rw [List.foldl_cons]
        exact ih _ (trackSent_sorted t c.1 c.2.1 c.2.2 h)
  exact key calls _ List.sorted_nil

/-- C5: after any `track_sent` call on a state reachable by prior
`track_sent` calls from the empty state, the stored sequence is sorted in
ascending order of `sent_at`, and every retained record's `sent_at` lies
within one period of every other (in particular of the maximum, so no record
older than `max_sent_at - period` is retained); with no model configured
(`Unregulated`) the call leaves the state unchanged. -/
theorem trackSent_invariants (model : Option LoraRegulatoryModel)
    (calls : List (ℤ × ℚ × ℚ)) (sentAt : ℤ) (frequency timeOnAir : ℚ) :
    List.Sorted sentPacketLE
        ((reachableThrottle model calls).trackSent sentAt frequency timeOnAir).sentPackets
    ∧ (∀ m, model = some m →
        ∀ p ∈ ((reachableThrottle model calls).trackSent sentAt frequency timeOnAir).sentPackets,
          ∀ q ∈ ((reachableThrottle model calls).trackSent sentAt frequency timeOnAir).sentPackets,
            q.sentAt - m.period < p.sentAt)
    ∧ (model = none →
        (reachableThrottle model calls).trackSent sentAt frequency timeOnAir
          = reachableThrottle model calls) := by
  have hsorted := reachable_sorted model calls
  have hmodel := reachable_model model calls
  refine ⟨trackSent_sorted _ _ _ _ hsorted, ?_, ?_⟩
  · intro m hm
    exact trackSent_window _ m _ _ _ (by rw [hmodel, hm]) hsorted
  · intro hnone
    exact trackSent_noop _ _ _ _ (by rw [hmodel, hnone])

/-! ## SHA-512 digest length -/

theorem beBytes_length (n x : ℕ) : (beBytes n x).length = n := by
  induction n generalizing x with
  | zero => rfl
  | succ k ih => simp [beBytes, ih]

theorem sha512Round_length (s : List ℕ) (kw : ℕ × ℕ) : (sha512Round s kw).length = 8 := rfl

theorem sha512Compress_length (kws : List (ℕ × ℕ)) (st : List ℕ) (h : st.length = 8) :
    (sha512Compress kws st).length = 8 := by
  unfold sha512Compress
  induction kws generalizing st with
  | nil => exact h
  | cons kw rest ih => rw [List.foldl_cons]; exact ih _ (sha512Round_length st kw)

theorem sha512Block_length (st b : List ℕ) (h : st.length = 8) :
    (sha512Block st b).length = 8 := by
  simp only [sha512Block]
  rw [List.length_map, List.length_zip, sha512Compress_length _ _ h, h]
  exact min_self 8

theorem sha512_length (msg : List ℕ) : (sha512 msg).length = 64 := by
  have hst : ∀ (blocks : List (List ℕ)) (st : List ℕ), st.length = 8 →
      (blocks.foldl sha512Block st).length = 8 := by
    intro blocks
    induction blocks with
    | nil => intro st h; exact h
    | cons b bs ih => intro st h; rw [List.foldl_cons]; exact ih _ (sha512Block_length st b h)
  have hflat : ∀ l : List ℕ, ((l.map (beBytes 8)).flatten).length = 8 * l.length := by
    intro l
    induction l with
    | nil => rfl
    | cons a t ih => simp [beBytes_length, ih]; omega
  unfold sha512
  rw [hflat, hst _ sha512H0 (by rfl)]

/-! ## Claim C3 : get_layer -/

theorem getD_drop (l : List ℕ) (n i : ℕ) : (l.drop n).getD i 0 = l.getD (n + i) 0 := by
  rw [List.getD_eq_getElem?_getD, List.getD_eq_getElem?_getD, List.getElem?_drop]

set_option maxRecDepth 10000 in
/-- C3 counterexample: at the concrete frame `onionC3` (length byte 2,
payload bytes 1 and 2, remainder byte 9), the layer the code computes
differs from the claim's description of it — the code hashes the payload
without its length byte and takes the XOR pair from digest offsets `L+5`
and `L+6`, not from the digest's low 16 bits. -/
theorem getLayer_claim_counterexample :
    Onion.getLayer onionC3 ≠ Onion.getLayerClaim onionC3 := by decide

/-- C3 (amended): for a decrypted frame whose plaintext is a length byte
`L` with `2 ≤ L ≤ 57` followed by at least `L` payload bytes and a
remainder, `get_layer` hashes the `L` payload bytes (the length byte
excluded) with SHA-512, appends the first `L+5` digest bytes as padding,
XORs the two digest bytes at offsets `L+5` and `L+6` (little-endian) with
the current IV to form the new IV, returns
`[new_iv | sender public key | remainder | padding]` as the next layer and
the first two payload bytes (little-endian) as the selector. -/
theorem getLayer_spec (o : Onion) (dataSize : ℕ) (buf : List ℕ)
    (hct : o.cipherText = dataSize :: buf) (hlen : dataSize ≤ buf.length)
    (h2 : 2 ≤ dataSize) (h57 : dataSize ≤ 57) :
    o.getLayer = some
      (le16ofBytes ((buf.take dataSize).getD 0 0) ((buf.take dataSize).getD 1 0),
        le16Bytes (xor16 o.iv (le16ofBytes ((sha512 (buf.take dataSize)).getD (dataSize + 5) 0)
            ((sha512 (buf.take dataSize)).getD (dataSize + 6) 0)))
          ++ o.publicKey ++ buf.drop dataSize
          ++ (sha512 (buf.take dataSize)).take (dataSize + 5)) := by
  have hdig : (sha512 (buf.take dataSize)).length = 64 := sha512_length _
  have htl : (buf.take dataSize).length = dataSize := by
    rw [List.length_take]; omega
  unfold Onion.getLayer
  rw [hct]
  simp only [getLayerBytes]
  rw [if_pos hlen, if_pos (by omega : dataSize + 5 ≤ (sha512 (buf.take dataSize)).length),
      if_pos (by rw [List.length_drop, hdig]; omega : 2 ≤ ((sha512 (buf.take dataSize)).drop (dataSize + 5)).length),
      if_pos (by rw [htl]; omega : 2 ≤ (buf.take dataSize).length)]
  rw [getD_drop, getD_drop]

/-- Witness for the amended C3 at the concrete frame `onionC3`. -/
theorem getLayer_spec_witness :
    Onion.getLayer onionC3 = some
      (le16ofBytes (([1, 2, 9].take 2).getD 0 0) (([1, 2, 9].take 2).getD 1 0),
        le16Bytes (xor16 onionC3.iv (le16ofBytes ((sha512 ([1, 2, 9].take 2)).getD 7 0)
            ((sha512 ([1, 2, 9].take 2)).getD 8 0)))
          ++ onionC3.publicKey ++ [1, 2, 9].drop 2 ++ (sha512 ([1, 2, 9].take 2)).take 7) :=
  getLayer_spec onionC3 2 [1, 2, 9] rfl (by decide) (by decide) (by decide)

/-! ## Claim C8 : get_layer panics -/

set_option maxRecDepth 10000 in
/-- C8: `get_layer` is not total — on a frame with an empty ciphertext the
source's first `get_u8` panics, and on a length byte of 60 the padding read
runs past the 64-byte SHA-512 digest and `copy_to_bytes` panics (the
`none` of the model marks the panic). -/
theorem getLayer_panics :
    Onion.getLayer onionEmpty = none
    ∧ Onion.getLayer { onionEmpty with cipherText := 60 :: List.replicate 60 0 } = none :=
  ⟨rfl, by decide⟩

/-! ## Claim C10 : decrypt_in_place error paths -/

theorem decryptInPlace_cases (ecdh : List ℕ → Option (List ℕ))
    (computeTag : List ℕ → List ℕ → List ℕ → List ℕ)
    (keystream : List ℕ → List ℕ → ℕ → ℕ) (o : Onion) :
    (Onion.decryptInPlace ecdh computeTag keystream o).1 = Except.ok ()
    ∨ (Onion.decryptInPlace ecdh computeTag keystream o).2 = o := by
  unfold Onion.decryptInPlace
  split
  · right; rfl
  · split
    · right; rfl
    · split
      · left; rfl
      · right; rfl

/-- C10: whenever `decrypt_in_place` returns an error — oversized
ciphertext, ECDH failure, or authentication-tag mismatch — the frame is
left exactly as it was: ciphertext, iv, tag, public key and all radio
metadata unchanged (the keystream touches the ciphertext only after the
tag comparison succeeds). Stated for every choice of the cryptographic
primitives. -/
theorem decryptInPlace_error_frame (ecdh : List ℕ → Option (List ℕ))
    (computeTag : List ℕ → List ℕ → List ℕ → List ℕ)
    (keystream : List ℕ → List ℕ → ℕ → ℕ) (o : Onion) (e : OnionDecryptError)
    (herr : (Onion.decryptInPlace ecdh computeTag keystream o).1 = Except.error e) :
    (Onion.decryptInPlace ecdh computeTag keystream o).2 = o := by
  rcases decryptInPlace_cases ecdh computeTag keystream o with h | h
  · rw [h] at herr; cases herr
  · exact h

/-- Witness for C10 at a concrete input: with a failing ECDH the call on
`onionC3` errors and leaves the frame untouched. -/
theorem decryptInPlace_error_frame_witness :
    (Onion.decryptInPlace ecdhNone tagZeros keystreamZero onionC3).2 = onionC3 :=
  decryptInPlace_error_frame ecdhNone tagZeros keystreamZero onionC3
    OnionDecryptError.ecdhFailed rfl

/-! ## Claim C7 : gc_waiting_reports -/

/-- C7 counterexample: a report whose retry count is exactly 20 — reachable,
and neither the `-1` sentinel nor in excess of the ceiling of 20 — is
nevertheless removed by `gc_waiting_reports`. -/
theorem gc_exact20_counterexample :
    gcWaitingReports MAX_REPORT_RETRY_COUNT [([1], ⟨0, none, [], 20⟩)] = []
    ∧ ¬((20 : ℤ) = -1 ∨ (20 : ℤ) > 20) :=
  ⟨rfl, by decide⟩

/-- C7 (amended): `gc_waiting_reports` with ceiling 20 removes exactly the
reports whose retry count is negative (the `-1` delivered sentinel in
particular) or at least 20, and keeps every other entry unchanged and in
order (the result is a sublist of the store). -/
theorem gcWaitingReports_mem_iff (reports : List (List ℕ × QueueReport))
    (kv : List ℕ × QueueReport) :
    (kv ∈ gcWaitingReports MAX_REPORT_RETRY_COUNT reports
      ↔ kv ∈ reports ∧ ¬(kv.2.retryCount < 0 ∨ MAX_REPORT_RETRY_COUNT ≤ kv.2.retryCount))
    ∧ (gcWaitingReports MAX_REPORT_RETRY_COUNT reports).Sublist reports := by
  refine ⟨?_, List.filter_sublist _⟩
  rw [gcWaitingReports, List.mem_filter]
  simp only [MAX_REPORT_RETRY_COUNT, Bool.and_eq_true, decide_eq_true_eq]
  constructor
  · rintro ⟨hmem, hpred⟩
    exact ⟨hmem, by omega⟩
  · rintro ⟨hmem, hcond⟩
    exact ⟨hmem, by omega⟩

/-! ## Claim C6 : payload_symbols -/

/-- C6: at spreading factor 12, code rate 1, explicit header, payload
length 0, no low-data-rate optimisation, the spec's formula clamps its
negative numerator (-4) and yields 8, but the source's `u32` numerator
wraps (8*0 - 4*12 underflows) to 2^32 - 4, so the code returns 89478494 —
the `max(_, 0)` over an unsigned value can never clamp. -/
theorem payload_symbols_underflow :
    payload_symbols 12 1 true 0 false = 89478494
    ∧ payloadSymbolsSpec 12 1 true 0 false = 8 := by
  constructor
  · have hc : Int.ceil ((357913941 : ℚ) / 4) = 89478486 := by
      rw [Int.ceil_eq_iff]
      norm_num
    norm_num [payload_symbols, add32, sub32, mul32, satCast32, hc]
    rfl
  · have hc : Int.ceil (-(1 / 12 : ℚ)) = 0 := by
      rw [Int.ceil_eq_iff]
      norm_num
    norm_num [payloadSymbolsSpec, hc]

end HeliumGateway
